import Mathlib

/-!
Verification of the parallel copy engine of `pycopy.py`.

Files are modelled as lists of bytes (`List Nat`); file offsets and sizes
are `Nat`.  The copy loops of `CopyThread.run` and `FolderCopyThread.run`
are translated statement by statement; the GUI layer is modelled only
where a claim depends on it (the spin box clamping, the status-poll
timer).
-/

namespace Pycopy

/-- `f_src.read n` after seeking to `pos`: returns at most `n` bytes
starting at offset `pos`; fewer (possibly zero) near end of file. -/
def fileRead (f : List Nat) (pos n : Nat) : List Nat :=
  (f.drop pos).take n

/-- Writing `data` at absolute offset `pos` of file `f` (the `f_dst.seek`
followed by `f_dst.write` of the source).  If `pos` is past the end the
gap is zero-filled, as POSIX does; in the program all writes are
in-bounds. -/
def writeAt (f : List Nat) (pos : Nat) (data : List Nat) : List Nat :=
  f.take pos ++ List.replicate (pos - f.length) 0 ++ data ++ f.drop (pos + data.length)

/-- Replacing the slice of `dst` starting at `pos` by `seg` (what
`writeAt` amounts to for in-bounds writes). -/
def splice (dst : List Nat) (pos : Nat) (seg : List Nat) : List Nat :=
  dst.take pos ++ seg ++ dst.drop (pos + seg.length)

/-- The `while bytes_to_copy > 0` loop of `CopyThread.run`
(src/pycopy.py lines 90-98).  `pos` is the current absolute offset of
both file cursors, `btc` the remaining `bytes_to_copy`, `bs` the
`block_size`.  Returns the destination file contents after the loop and
the list of byte counts emitted through `progress_update` (the thread
index of each event is fixed, so only the `len(data)` payloads are
kept), in emission order. -/
def copyLoop (src dst : List Nat) (pos btc bs : Nat) : List Nat × List Nat :=
  if hbtc : btc = 0 then (dst, [])
  else
    -- read_size = block_size if bytes_to_copy >= block_size else bytes_to_copy
    let readSize := if bs ≤ btc then bs else btc
    let data := fileRead src pos readSize
    if hd : data.length = 0 then (dst, [])
    else
      let out := copyLoop src (writeAt dst pos data) (pos + data.length) (btc - data.length) bs
      (out.1, data.length :: out.2)
termination_by btc
decreasing_by exact Nat.sub_lt (Nat.pos_of_ne_zero hbtc) (Nat.pos_of_ne_zero hd)

/-- `CopyThread.run` without an I/O error: copies the byte range
`[startPos, endPos)` (`total_bytes = end_pos - start_pos`).  Returns the
new destination contents, the progress events, and whether
`finished_signal` was emitted (always, line 101). -/
def CopyThread.run (src dst : List Nat) (startPos endPos bs : Nat) :
    List Nat × List Nat × Bool :=
  let out := copyLoop src dst startPos (endPos - startPos) bs
  (out.1, out.2, true)

/-- The range assigned to thread `i` in `MainWindow.start_copy`
(src/pycopy.py lines 299-304): `part_size = total // thread_count`,
`start_pos = i * part_size`,
`end_pos = (i+1)*part_size if i != thread_count - 1 else total`. -/
def rangeOf (total threadCount i : Nat) : Nat × Nat :=
  (i * (total / threadCount),
   if i ≠ threadCount - 1 then (i + 1) * (total / threadCount) else total)

/-- The `for i in range(thread_count)` loop building one `CopyThread`
per range. -/
def fileRanges (total threadCount : Nat) : List (Nat × Nat) :=
  (List.range threadCount).map (rangeOf total threadCount)

/-- File-mode copy as orchestrated by `start_copy`: the destination is
pre-created with `truncate(total_file_size)` (a zero-filled file of the
source's length), then each `CopyThread` copies its range.  The threads
write disjoint ranges, so the resulting file is the same for every
interleaving; the model applies them in index order. -/
def fileModeCopy (src : List Nat) (threadCount bs : Nat) : List Nat :=
  (fileRanges src.length threadCount).foldl
    (fun dst r => (copyLoop src dst r.1 (r.2 - r.1) bs).1)
    (List.replicate src.length 0)

lemma div_mul_pred_le (S N : Nat) : (N - 1) * (S / N) ≤ S := by
  have h1 : (N - 1) * (S / N) ≤ N * (S / N) :=
    Nat.mul_le_mul_right _ (Nat.sub_le N 1)
  have h2 : N * (S / N) ≤ S := by
    rw [Nat.mul_comm]; exact Nat.div_mul_le_self S N
  omega

lemma rangeOf_last (S N : Nat) : rangeOf S N (N - 1) = ((N - 1) * (S / N), S) := by
  simp [rangeOf]

lemma rangeOf_of_lt (S N i : Nat) (hi : i < N - 1) :
    rangeOf S N i = (i * (S / N), (i + 1) * (S / N)) := by
  simp [rangeOf, Nat.ne_of_lt hi]

lemma fileRanges_sum_lengths (S N : Nat) (hN : 1 ≤ N) :
    ((fileRanges S N).map (fun r => r.2 - r.1)).sum = S := by
  obtain ⟨n, rfl⟩ : ∃ n, N = n + 1 := ⟨N - 1, by omega⟩
  have hrepl : ((List.range n).map
      (fun i => (rangeOf S (n + 1) i).2 - (rangeOf S (n + 1) i).1)) =
      List.replicate n (S / (n + 1)) := by
    have h0 := List.eq_replicate_of_mem (l := (List.range n).map
        (fun i => (rangeOf S (n + 1) i).2 - (rangeOf S (n + 1) i).1))
        (a := S / (n + 1)) ?side
    case side =>
      intro b hb
      rcases List.mem_map.mp hb with ⟨i, hi, hval⟩
      have hi' : i < (n + 1) - 1 := by
        have := List.mem_range.mp hi
        omega
      rw [rangeOf_of_lt S (n + 1) i hi'] at hval
      simp only at hval
      have hsplit : (i + 1) * (S / (n + 1)) = i * (S / (n + 1)) + S / (n + 1) := by
        ring
      rw [← hval, hsplit]
      exact Nat.add_sub_cancel_left _ _
    have hlen : ((List.range n).map
        (fun i => (rangeOf S (n + 1) i).2 - (rangeOf S (n + 1) i).1)).length = n := by
      simp
    rw [hlen] at h0
    exact h0
  rw [fileRanges, List.range_succ, List.map_append, List.map_append,
    List.sum_append]
  simp only [List.map_map, Function.comp_def]
  rw [hrepl, List.sum_replicate, smul_eq_mul]
  have hlast : rangeOf S (n + 1) n = (n * (S / (n + 1)), S) := by
    have := rangeOf_last S (n + 1)
    simpa using this
  simp only [List.map_cons, List.map_nil, List.sum_cons, List.sum_nil, hlast]
  have h1 := div_mul_pred_le S (n + 1)
  simp only [Nat.add_sub_cancel] at h1
  omega

/-- Claim C2: for every file size `S ≥ 0` and worker count `N ≥ 1`, the
`N` ranges of the partitioner are well-formed, pairwise disjoint,
contiguous, cover exactly `[0, S)`, and their lengths sum to exactly
`S`. -/
theorem fileRanges_partition_exact (S N : Nat) (hN : 1 ≤ N) :
    (fileRanges S N).length = N
    ∧ (rangeOf S N 0).1 = 0
    ∧ (rangeOf S N (N - 1)).2 = S
    ∧ (∀ i, i < N → (rangeOf S N i).1 ≤ (rangeOf S N i).2)
    ∧ (∀ i, i + 1 < N → (rangeOf S N i).2 = (rangeOf S N (i + 1)).1)
    ∧ (∀ i j, i < j → j < N → (rangeOf S N i).2 ≤ (rangeOf S N j).1)
    ∧ ((fileRanges S N).map (fun r => r.2 - r.1)).sum = S
    ∧ (∀ x, x < S → ∃ i, i < N ∧ (rangeOf S N i).1 ≤ x ∧ x < (rangeOf S N i).2) := by
  refine ⟨by simp [fileRanges], by simp [rangeOf], by simp [rangeOf], ?_, ?_, ?_, fileRanges_sum_lengths S N hN, ?_⟩
  · intro i hi
    by_cases h : i < N - 1
    · rw [rangeOf_of_lt S N i h]
      exact Nat.mul_le_mul_right _ (Nat.le_succ i)
    · have : i = N - 1 := by omega
      subst this
      rw [rangeOf_last]
      exact div_mul_pred_le S N
  · intro i hi
    rw [rangeOf_of_lt S N i (by omega)]
    rfl
  · intro i j hij hj
    have hi : i < N - 1 := by omega
    rw [rangeOf_of_lt S N i hi]
    by_cases h : j < N - 1
    · rw [rangeOf_of_lt S N j h]
      exact Nat.mul_le_mul_right _ hij
    · have : j = N - 1 := by omega
      subst this
      rw [rangeOf_last]
      exact Nat.mul_le_mul_right _ (by omega)
  · intro x hx
    by_cases hlast : (N - 1) * (S / N) ≤ x
    · exact ⟨N - 1, by omega, by rw [rangeOf_last]; exact ⟨hlast, hx⟩⟩
    · push_neg at hlast
      have hp : 0 < S / N := by
        rcases Nat.eq_zero_or_pos (S / N) with h0 | h0
        · rw [h0, Nat.mul_zero] at hlast
          omega
        · exact h0
      have hi : x / (S / N) < N - 1 := by
        rcases Nat.lt_or_ge (x / (S / N)) (N - 1) with h | h
        · exact h
        · exfalso
          have hm : (N - 1) * (S / N) ≤ x / (S / N) * (S / N) :=
            Nat.mul_le_mul_right _ h
          have hx2 : x / (S / N) * (S / N) ≤ x := Nat.div_mul_le_self _ _
          omega
      refine ⟨x / (S / N), by omega, ?_, ?_⟩
      · rw [rangeOf_of_lt S N _ hi]
        exact Nat.div_mul_le_self x (S / N)
      · rw [rangeOf_of_lt S N _ hi]
        have h1 := Nat.div_add_mod x (S / N)
        have h2 := Nat.mod_lt x hp
        have h3 : (x / (S / N) + 1) * (S / N) =
            S / N * (x / (S / N)) + S / N := by ring
        simp only
        omega

/-- Witness for C2 at `S = 10`, `N = 3`. -/
theorem fileRanges_partition_exact_witness :
    ((fileRanges 10 3).map (fun r => r.2 - r.1)).sum = 10 :=
  (fileRanges_partition_exact 10 3 (by decide)).2.2.2.2.2.2.1

lemma splice_nil (dst : List Nat) (pos : Nat) : splice dst pos [] = dst := by
  simp [splice]

lemma writeAt_eq_splice (f : List Nat) (pos : Nat) (data : List Nat)
    (h : pos ≤ f.length) : writeAt f pos data = splice f pos data := by
  simp [writeAt, splice, Nat.sub_eq_zero_of_le h]

lemma splice_length (dst : List Nat) (pos : Nat) (seg : List Nat)
    (h : pos + seg.length ≤ dst.length) :
    (splice dst pos seg).length = dst.length := by
  simp only [splice, List.length_append, List.length_take, List.length_drop]
  omega

lemma splice_assoc (dst : List Nat) (pos : Nat) (a : List Nat) :
    splice dst pos a = (dst.take pos ++ a) ++ dst.drop (pos + a.length) := by
  simp [splice, List.append_assoc]

lemma splice_splice (dst a b : List Nat) (pos : Nat)
    (h : pos + a.length ≤ dst.length) :
    splice (splice dst pos a) (pos + a.length) b = splice dst pos (a ++ b) := by
  have hpos : pos ≤ dst.length := by omega
  have hX : (dst.take pos ++ a).length = pos + a.length := by
    simp only [List.length_append, List.length_take]
    omega
  rw [splice_assoc dst pos a]
  rw [splice]
  rw [List.take_left' hX, List.drop_append_eq_append_drop]
  rw [hX]
  have hd1 : pos + a.length + b.length - (pos + a.length) = b.length := by omega
  rw [hd1, List.drop_drop]
  rw [splice_assoc dst pos (a ++ b)]
  simp only [List.length_append, List.append_assoc]
  have hadd : pos + a.length + b.length = pos + (a.length + b.length) := by omega
  rw [hadd]
  have hnil : List.drop (pos + (a.length + b.length)) (List.take pos dst ++ a) = [] := by
    apply List.drop_eq_nil_of_le
    rw [hX]
    omega
  rw [hnil, List.nil_append]

lemma copyLoop_copies (bs : Nat) (hbs : 0 < bs) :
    ∀ btc src dst pos, pos + btc ≤ src.length → pos + btc ≤ dst.length →
      (copyLoop src dst pos btc bs).1 = splice dst pos ((src.drop pos).take btc) := by
  intro btc
  induction btc using Nat.strong_induction_on with
  | _ btc IH =>
    intro src dst pos hsrc hdst
    rcases Nat.eq_zero_or_pos btc with hbtc | hbtc
    · subst hbtc
      rw [copyLoop]
      simp [splice_nil]
    · rw [copyLoop]
      rw [dif_neg (by omega)]
      have hrs_le : (if bs ≤ btc then bs else btc) ≤ btc := by
        split <;> omega
      have hrs_pos : 0 < (if bs ≤ btc then bs else btc) := by
        split <;> omega
      have hdata : (fileRead src pos (if bs ≤ btc then bs else btc)).length
          = (if bs ≤ btc then bs else btc) := by
        simp only [fileRead, List.length_take, List.length_drop]
        omega
      rw [dif_neg (by omega)]
      simp only
      set rs := if bs ≤ btc then bs else btc with hrs
      have hwr : writeAt dst pos (fileRead src pos rs)
          = splice dst pos (fileRead src pos rs) :=
        writeAt_eq_splice _ _ _ (by omega)
      rw [hwr]
      have hlen' : (splice dst pos (fileRead src pos rs)).length = dst.length :=
        splice_length _ _ _ (by omega)
      have hIH := IH (btc - (fileRead src pos rs).length)
        (by omega)
        src (splice dst pos (fileRead src pos rs))
        (pos + (fileRead src pos rs).length)
        (by omega) (by omega)
      rw [hIH]
      rw [hdata]
      have hsp := splice_splice dst (fileRead src pos rs)
        ((src.drop (pos + rs)).take (btc - rs)) pos (by omega)
      rw [hdata] at hsp
      rw [hsp]
      have hseg : fileRead src pos rs ++ (src.drop (pos + rs)).take (btc - rs)
          = (src.drop pos).take btc := by
        rw [fileRead]
        have h1 : (src.drop pos).drop rs = src.drop (pos + rs) := by
          rw [List.drop_drop]
        rw [← h1, ← List.take_add]
        have : rs + (btc - rs) = btc := by omega
        rw [this]
      rw [hseg]

/-- A list of ranges forming a contiguous chain from `a` to `b`. -/
def isChain : Nat → List (Nat × Nat) → Nat → Prop
  | a, [], b => a = b
  | a, r :: rs, b => r.1 = a ∧ a ≤ r.2 ∧ isChain r.2 rs b

lemma isChain_le : ∀ (rs : List (Nat × Nat)) (a b : Nat), isChain a rs b → a ≤ b := by
  intro rs
  induction rs with
  | nil => intro a b h; exact Nat.le_of_eq h
  | cons r rs IH =>
    intro a b h
    obtain ⟨h1, h2, h3⟩ := h
    exact Nat.le_trans h2 (IH r.2 b h3)

lemma fold_copy_chain (src : List Nat) (bs : Nat) (hbs : 0 < bs) :
    ∀ (rs : List (Nat × Nat)) (a b : Nat) (dst : List Nat),
      isChain a rs b → b ≤ src.length → dst.length = src.length →
      rs.foldl (fun d r => (copyLoop src d r.1 (r.2 - r.1) bs).1) dst
        = splice dst a ((src.drop a).take (b - a)) := by
  intro rs
  induction rs with
  | nil =>
    intro a b dst hch hb hd
    have hab : a = b := hch
    subst hab
    simp [splice_nil]
  | cons r rs IH =>
    intro a b dst hch hb hd
    obtain ⟨h1, h2, h3⟩ := hch
    have hrb : r.2 ≤ b := isChain_le rs r.2 b h3
    rw [List.foldl_cons]
    have hstep : (copyLoop src dst r.1 (r.2 - r.1) bs).1
        = splice dst a ((src.drop a).take (r.2 - a)) := by
      rw [h1]
      have := copyLoop_copies bs hbs (r.2 - a) src dst a (by omega) (by omega)
      rw [this]
    rw [hstep]
    have hseg1len : ((src.drop a).take (r.2 - a)).length = r.2 - a := by
      simp only [List.length_take, List.length_drop]
      omega
    have hlen1 : (splice dst a ((src.drop a).take (r.2 - a))).length = src.length := by
      rw [splice_length _ _ _ (by omega)]
      exact hd
    have hIH := IH r.2 b (splice dst a ((src.drop a).take (r.2 - a))) h3 hb hlen1
    rw [hIH]
    have hsp := splice_splice dst ((src.drop a).take (r.2 - a))
      ((src.drop r.2).take (b - r.2)) a (by omega)
    rw [hseg1len] at hsp
    have har : a + (r.2 - a) = r.2 := by omega
    rw [har] at hsp
    rw [hsp]
    have hseg : (src.drop a).take (r.2 - a) ++ (src.drop r.2).take (b - r.2)
        = (src.drop a).take (b - a) := by
      have h1' : (src.drop a).drop (r.2 - a) = src.drop r.2 := by
        rw [List.drop_drop]
        have : a + (r.2 - a) = r.2 := by omega
        rw [this]
      rw [← h1', ← List.take_add]
      have : r.2 - a + (b - r.2) = b - a := by omega
      rw [this]
    rw [hseg]

lemma fileRanges_chain_aux (S N : Nat) :
    ∀ m i, i + m = N → 1 ≤ m →
      isChain (i * (S / N)) ((List.range' i m).map (rangeOf S N)) S := by
  intro m
  induction m with
  | zero => intro i h h1; omega
  | succ m IH =>
    intro i hiN hm
    rw [List.range'_succ]
    simp only [List.map_cons]
    rcases Nat.eq_zero_or_pos m with hm0 | hm0
    · subst hm0
      have hi : i = N - 1 := by omega
      subst hi
      refine ⟨by rw [rangeOf_last], ?_, ?_⟩
      · rw [rangeOf_last]
        exact div_mul_pred_le S N
      · simp only [List.range'_zero, List.map_nil]
        rw [rangeOf_last]
        exact rfl
    · have hi : i < N - 1 := by omega
      rw [rangeOf_of_lt S N i hi]
      exact ⟨rfl, Nat.mul_le_mul_right _ (Nat.le_succ i),
        IH (i + 1) (by omega) (by omega)⟩

/-- Claim C1: file-mode round trip.  For every source content, every
worker count `N ≥ 1` and every block size `≥ 1` (the program uses
1 MiB), pre-sizing the destination to the source length and letting each
`CopyThread` copy its range yields a destination byte-identical to the
source. -/
theorem fileModeCopy_roundtrip (src : List Nat) (N bs : Nat)
    (hN : 1 ≤ N) (hbs : 1 ≤ bs) : fileModeCopy src N bs = src := by
  unfold fileModeCopy
  have hch : isChain 0 (fileRanges src.length N) src.length := by
    have h := fileRanges_chain_aux src.length N N 0 (by omega) hN
    simpa [fileRanges, List.range_eq_range'] using h
  have hfold := fold_copy_chain src bs hbs (fileRanges src.length N) 0
    src.length (List.replicate src.length 0) hch (Nat.le_refl _) (by simp)
  rw [hfold]
  simp [splice]

/-- Witness for C1: three bytes, two workers, block size one. -/
theorem fileModeCopy_roundtrip_witness : fileModeCopy [7, 3, 9] 2 1 = [7, 3, 9] :=
  fileModeCopy_roundtrip [7, 3, 9] 2 1 (by decide) (by decide)

/-- The per-file copy loop of `FolderCopyThread.run` (src/pycopy.py
lines 133-144).  The destination is opened with mode `wb` (starts
empty) and written sequentially, so it is an accumulator `dst`; the
source read position equals `copied`.  Returns the final destination
contents, the list of percentages emitted through
`thread_progress_update` (the source computes
`int(copied / file_size * 100)` with float division; the value is
modelled with natural division, and no claim depends on it, only on the
divisor `file_size`), and the list of byte counts emitted through
`overall_progress_update`. -/
def copyFileLoop (src dst : List Nat) (copied fileSize bs : Nat) :
    List Nat × List Nat × List Nat :=
  if hlt : copied < fileSize then
    let readSize := if bs ≤ fileSize - copied then bs else fileSize - copied
    let data := fileRead src copied readSize
    if hd : data.length = 0 then (dst, [], [])
    else
      let out := copyFileLoop src (dst ++ data) (copied + data.length) fileSize bs
      (out.1, (copied + data.length) * 100 / fileSize :: out.2.1,
       data.length :: out.2.2)
  else (dst, [], [])
termination_by fileSize - copied
decreasing_by exact Nat.sub_lt_sub_left hlt (Nat.lt_add_of_pos_right (Nat.pos_of_ne_zero hd))

/-- `MainWindow.update_status` (src/pycopy.py lines 390-406), abstracted
over the 500 ms `QTimer`: `ticks` lists the values `total_bytes_copied`
would have at the successive timer ticks, and `total` is
`total_file_size`.  Each tick checks
`total_bytes_copied >= total_file_size`; when it holds the timer is
stopped (no later tick runs the handler) and the completion dialog is
shown.  The result is the list of tick indices at which the completion
dialog is raised, `i` being the index of the first tick of `ticks`. -/
def updateStatusTicks (total i : Nat) : List Nat → List Nat
  | [] => []
  | t :: ts => if total ≤ t then [i] else updateStatusTicks total (i + 1) ts

lemma updateStatusTicks_eq (total : Nat) :
    ∀ (ticks : List Nat) (i : Nat),
      updateStatusTicks total i ticks
      = match List.findIdx? (fun t => decide (total ≤ t)) ticks i with
        | some j => [j]
        | none => [] := by
  intro ticks
  induction ticks with
  | nil =>
    intro i
    rw [List.findIdx?_nil]
    rfl
  | cons t ts IH =>
    intro i
    rw [List.findIdx?_cons]
    by_cases h : total ≤ t
    · simp [updateStatusTicks, h]
    · simp only [updateStatusTicks, h, if_false, decide_eq_true_eq, if_neg]
      rw [IH (i + 1)]

/-- Claim C3: the status poller raises the terminal finished dialog
exactly once, at the first tick where `total_bytes_copied` has reached
`total_file_size`, and stops polling afterwards (the result is `[j]`
for the first such tick `j`); if no tick ever observes
`total_copied ≥ total_expected` — e.g. a worker failed partway — the
finished dialog is never raised (`[]`). -/
theorem updateStatus_finished_exactly_once (total : Nat) (ticks : List Nat) :
    (updateStatusTicks total 0 ticks
      = match List.findIdx? (fun t => decide (total ≤ t)) ticks with
        | some j => [j]
        | none => [])
    ∧ ((∀ t ∈ ticks, t < total) → updateStatusTicks total 0 ticks = []) := by
  constructor
  · exact updateStatusTicks_eq total ticks 0
  · intro hlt
    rw [updateStatusTicks_eq total ticks 0]
    have hnone : List.findIdx? (fun t => decide (total ≤ t)) ticks = none := by
      rw [List.findIdx?_eq_none_iff]
      intro x hx
      simpa using Nat.not_le.mpr (hlt x hx)
    rw [hnone]

/-- Witness for C3: ticks `[1, 2, 5]`, total `5`: the three ticks all
stay below total `9`, so the dialog never appears. -/
theorem updateStatus_finished_exactly_once_witness :
    updateStatusTicks 9 0 [1, 2, 5] = [] :=
  (updateStatus_finished_exactly_once 9 [1, 2, 5]).2 (by decide)

/-- A Qt `QSpinBox` keeps `value()` inside `[minimum, maximum]`: any
requested value (typed or set programmatically) is clamped to the
range. -/
def spinBoxValue (lo hi v : Int) : Int := max lo (min v hi)

/-- The thread-count spin box of `MainWindow.initUI` (src/pycopy.py
lines 214-216): `setRange(1, 64)`. -/
def threadSpinValue (v : Int) : Int := spinBoxValue 1 64 v

/-- `start_copy` reads `thread_count = self.thread_spin.value()`
(line 268) and constructs one `CopyThread` (file mode) or one
`FolderCopyThread` (folder mode) per `i in range(thread_count)`. -/
def workersConstructed (v : Int) : Nat := (threadSpinValue v).toNat

/-- Claim C8: in both modes the worker count used is the spin-box value,
clamped to `1..64` before range partitioning or queue construction, so
between 1 and 64 workers are constructed regardless of the requested
value; a request already in `1..64` is used as-is. -/
theorem workersConstructed_clamped (v : Int) (S : Nat) :
    1 ≤ workersConstructed v
    ∧ workersConstructed v ≤ 64
    ∧ (1 ≤ v → v ≤ 64 → (workersConstructed v : Int) = v)
    ∧ (fileRanges S (workersConstructed v)).length = workersConstructed v := by
  refine ⟨?_, ?_, ?_, by simp [fileRanges]⟩
  · simp only [workersConstructed, threadSpinValue, spinBoxValue]
    omega
  · simp only [workersConstructed, threadSpinValue, spinBoxValue]
    omega
  · intro h1 h64
    simp only [workersConstructed, threadSpinValue, spinBoxValue]
    omega

/-- Witness for C8 at requested value 1000: the count is clamped to 64. -/
theorem workersConstructed_clamped_witness : workersConstructed 1000 ≤ 64 :=
  (workersConstructed_clamped 1000 0).2.1

lemma copyFileLoop_zero_size (src dst : List Nat) (copied bs : Nat) :
    copyFileLoop src dst copied 0 bs = (dst, [], []) := by
  rw [copyFileLoop]
  simp

/-- Claim C10: zero-length units cause no division by zero.  A file-mode
worker with an empty range emits no progress events, so
`handle_file_progress` (which divides by that worker's
`total_bytes = end_pos - start_pos`) never runs for it; a folder-mode
task of recorded size 0 never enters its copy loop, so the per-file
percentage (divided by `file_size`) is never computed, and whenever a
percentage event does exist the divisor was positive. -/
theorem zero_length_units_no_division (src dst : List Nat)
    (s e bs copied fs : Nat) :
    (e ≤ s → (CopyThread.run src dst s e bs).2.1 = [])
    ∧ ((CopyThread.run src dst s e bs).2.1 ≠ [] → 0 < e - s)
    ∧ (fs = 0 → copyFileLoop src dst copied fs bs = (dst, [], []))
    ∧ ((copyFileLoop src dst copied fs bs).2.1 ≠ [] → 0 < fs) := by
  refine ⟨?_, ?_, ?_, ?_⟩
  · intro hes
    have h0 : e - s = 0 := by omega
    rw [CopyThread.run]
    simp only [h0]
    rw [copyLoop]
    simp
  · intro hne
    by_contra hzero
    have h0 : e - s = 0 := by omega
    rw [CopyThread.run] at hne
    simp only [h0] at hne
    rw [copyLoop] at hne
    simp at hne
  · intro h0
    subst h0
    exact copyFileLoop_zero_size src dst copied bs
  · intro hne
    by_contra hzero
    have h0 : fs = 0 := by omega
    subst h0
    rw [copyFileLoop_zero_size] at hne
    simp at hne

/-- Witness for C10: an empty range `[2, 2)` emits nothing. -/
theorem zero_length_units_no_division_witness :
    (CopyThread.run [1, 2, 3] [0, 0, 0] 2 2 5).2.1 = [] :=
  (zero_length_units_no_division [1, 2, 3] [0, 0, 0] 2 2 5 0 0).1 (by decide)

lemma copyLoop_sum_le (src : List Nat) (bs : Nat) :
    ∀ btc (dst : List Nat) (pos : Nat),
      ((copyLoop src dst pos btc bs).2).sum ≤ btc := by
  intro btc
  induction btc using Nat.strong_induction_on with
  | _ btc IH =>
    intro dst pos
    rcases Nat.eq_zero_or_pos btc with h0 | hpos
    · subst h0
      rw [copyLoop]
      simp
    · rw [copyLoop, dif_neg (by omega)]
      by_cases hd : (fileRead src pos (if bs ≤ btc then bs else btc)).length = 0
      · rw [dif_pos hd]
        simp
      · rw [dif_neg hd]
        simp only [List.sum_cons]
        have hle : (fileRead src pos (if bs ≤ btc then bs else btc)).length
            ≤ (if bs ≤ btc then bs else btc) := by
          rw [fileRead, List.length_take]
          exact inf_le_left
        have hif : (if bs ≤ btc then bs else btc) ≤ btc := by
          split <;> omega
        have hlen : (fileRead src pos (if bs ≤ btc then bs else btc)).length ≤ btc :=
          le_trans hle hif
        have hrec := IH
          (btc - (fileRead src pos (if bs ≤ btc then bs else btc)).length)
          (by omega)
          (writeAt dst pos (fileRead src pos (if bs ≤ btc then bs else btc)))
          (pos + (fileRead src pos (if bs ≤ btc then bs else btc)).length)
        omega

lemma copyFileLoop_sum_le (src : List Nat) (bs fs : Nat) :
    ∀ (copied : Nat) (dst : List Nat),
      ((copyFileLoop src dst copied fs bs).2.2).sum ≤ fs - copied := by
  suffices h : ∀ n copied (dst : List Nat), fs - copied ≤ n →
      ((copyFileLoop src dst copied fs bs).2.2).sum ≤ fs - copied by
    intro copied dst
    exact h (fs - copied) copied dst (Nat.le_refl _)
  intro n
  induction n with
  | zero =>
    intro copied dst h
    have hnlt : ¬ copied < fs := by omega
    rw [copyFileLoop, dif_neg hnlt]
    simp
  | succ n IH =>
    intro copied dst h
    by_cases hlt : copied < fs
    · rw [copyFileLoop, dif_pos hlt]
      by_cases hd : (fileRead src copied
          (if bs ≤ fs - copied then bs else fs - copied)).length = 0
      · rw [dif_pos hd]
        simp
      · rw [dif_neg hd]
        simp only [List.sum_cons]
        have hpos : 0 < (fileRead src copied
            (if bs ≤ fs - copied then bs else fs - copied)).length :=
          Nat.pos_of_ne_zero hd
        have hle : (fileRead src copied
            (if bs ≤ fs - copied then bs else fs - copied)).length
            ≤ (if bs ≤ fs - copied then bs else fs - copied) := by
          rw [fileRead, List.length_take]
          exact inf_le_left
        have hif : (if bs ≤ fs - copied then bs else fs - copied) ≤ fs - copied := by
          split <;> omega
        have hle' : (fileRead src copied
            (if bs ≤ fs - copied then bs else fs - copied)).length
            ≤ fs - copied := le_trans hle hif
        have hrec := IH
          (copied + (fileRead src copied
            (if bs ≤ fs - copied then bs else fs - copied)).length)
          (dst ++ fileRead src copied
            (if bs ≤ fs - copied then bs else fs - copied))
          (by omega)
        omega
    · rw [copyFileLoop, dif_neg hlt]
      simp

/-- The progress events of `copyLoop` depend only on the source, the
offsets and the block size, not on the destination contents: the
concurrently shared destination file does not influence them. -/
lemma copyLoop_events_indep (src : List Nat) (bs : Nat) :
    ∀ btc (dst dst2 : List Nat) (pos : Nat),
      (copyLoop src dst pos btc bs).2 = (copyLoop src dst2 pos btc bs).2 := by
  intro btc
  induction btc using Nat.strong_induction_on with
  | _ btc IH =>
    intro dst dst2 pos
    rcases Nat.eq_zero_or_pos btc with h0 | hpos
    · subst h0
      rw [copyLoop, copyLoop]
      simp
    · have hbtc : ¬ btc = 0 := by omega
      rw [copyLoop, copyLoop]
      simp only [dif_neg hbtc]
      by_cases hd : (fileRead src pos (if bs ≤ btc then bs else btc)).length = 0
      · simp only [dif_pos hd]
      · simp only [dif_neg hd]
        rw [IH (btc - (fileRead src pos (if bs ≤ btc then bs else btc)).length)
          (Nat.sub_lt hpos (Nat.pos_of_ne_zero hd))
          (writeAt dst pos (fileRead src pos (if bs ≤ btc then bs else btc)))
          (writeAt dst2 pos (fileRead src pos (if bs ≤ btc then bs else btc)))
          (pos + (fileRead src pos (if bs ≤ btc then bs else btc)).length)]

/-- The per-worker `progress_update` payload lists of a file-mode copy
(one list per `CopyThread`, in thread order).  By
`copyLoop_events_indep` they do not depend on the shared destination,
which is here the pre-sized zero-filled file. -/
def fileWorkerEvents (src : List Nat) (threadCount bs : Nat) : List (List Nat) :=
  (fileRanges src.length threadCount).map
    (fun r => (copyLoop src (List.replicate src.length 0) r.1 (r.2 - r.1) bs).2)

/-- The per-task `overall_progress_update` payload lists of a
folder-mode copy: each scanned task `(contents, recorded size)` is
copied by exactly one worker. -/
def folderOverallDeltas (bs : Nat) (tasks : List (List Nat × Nat)) :
    List (List Nat) :=
  tasks.map (fun t => (copyFileLoop t.1 [] 0 t.2 bs).2.2)

lemma take_sum_le_sum (l : List Nat) (k : Nat) : (l.take k).sum ≤ l.sum := by
  conv_rhs => rw [← List.take_append_drop k l]
  rw [List.sum_append]
  omega

lemma take_sum_mono (l : List Nat) (i j : Nat) (hij : i ≤ j) :
    (l.take i).sum ≤ (l.take j).sum := by
  have h : (l.take j).take i = l.take i := by
    rw [List.take_take, Nat.min_eq_left hij]
  rw [← h]
  exact take_sum_le_sum (l.take j) i

lemma fileWorkerEvents_sum_le (src : List Nat) (threadCount bs : Nat)
    (hN : 1 ≤ threadCount) :
    ((fileWorkerEvents src threadCount bs).map List.sum).sum ≤ src.length := by
  rw [fileWorkerEvents, List.map_map]
  have hle : ∀ r ∈ fileRanges src.length threadCount,
      (List.sum ∘ fun r => (copyLoop src (List.replicate src.length 0)
        r.1 (r.2 - r.1) bs).2) r ≤ (fun r => r.2 - r.1) r := by
    intro r _
    exact copyLoop_sum_le src bs (r.2 - r.1) _ r.1
  calc ((fileRanges src.length threadCount).map _).sum
      ≤ ((fileRanges src.length threadCount).map (fun r => r.2 - r.1)).sum :=
        List.sum_le_sum hle
    _ = src.length := fileRanges_sum_lengths src.length threadCount hN

lemma folderOverallDeltas_sum_le (bs : Nat) (tasks : List (List Nat × Nat)) :
    ((folderOverallDeltas bs tasks).map List.sum).sum
      ≤ (tasks.map (fun t => t.2)).sum := by
  rw [folderOverallDeltas, List.map_map]
  apply List.sum_le_sum
  intro t _
  have := copyFileLoop_sum_le t.1 bs t.2 0 []
  simpa using this

/-- Claim C7: across successive status ticks of one copy operation the
aggregate bytes-copied value is non-decreasing and never exceeds the
total expected bytes.  The aggregate observed after `k` delivered
events is the prefix sum of the delivered deltas `ds`; `ds` may be any
interleaving (permutation) of the workers' event lists.  File mode is
bounded by the source length; folder mode by the sum of the scanned
sizes. -/
theorem aggregate_progress_monotone_bounded
    (src : List Nat) (threadCount bs : Nat) (ds : List Nat)
    (tasks : List (List Nat × Nat)) (dsT : List Nat)
    (hN : 1 ≤ threadCount)
    (hperm : ds.Perm (fileWorkerEvents src threadCount bs).flatten)
    (hpermT : dsT.Perm (folderOverallDeltas bs tasks).flatten) :
    (∀ i j, i ≤ j → (ds.take i).sum ≤ (ds.take j).sum)
    ∧ (∀ k, (ds.take k).sum ≤ src.length)
    ∧ (∀ i j, i ≤ j → (dsT.take i).sum ≤ (dsT.take j).sum)
    ∧ (∀ k, (dsT.take k).sum ≤ (tasks.map (fun t => t.2)).sum) := by
  refine ⟨fun i j hij => take_sum_mono ds i j hij, ?_,
    fun i j hij => take_sum_mono dsT i j hij, ?_⟩
  · intro k
    calc (ds.take k).sum ≤ ds.sum := take_sum_le_sum ds k
      _ = (fileWorkerEvents src threadCount bs).flatten.sum := hperm.sum_eq
      _ = ((fileWorkerEvents src threadCount bs).map List.sum).sum :=
        List.sum_flatten
      _ ≤ src.length := fileWorkerEvents_sum_le src threadCount bs hN
  · intro k
    calc (dsT.take k).sum ≤ dsT.sum := take_sum_le_sum dsT k
      _ = (folderOverallDeltas bs tasks).flatten.sum := hpermT.sum_eq
      _ = ((folderOverallDeltas bs tasks).map List.sum).sum := List.sum_flatten
      _ ≤ (tasks.map (fun t => t.2)).sum := folderOverallDeltas_sum_le bs tasks

/-- Witness for C7: source `[4, 5, 6]`, two workers, block size 2, one
folder task of three bytes; the identity interleavings. -/
theorem aggregate_progress_monotone_bounded_witness :
    ((((fileWorkerEvents [4, 5, 6] 2 2).flatten).take 2).sum ≤ 3) :=
  (aggregate_progress_monotone_bounded [4, 5, 6] 2 2
    (fileWorkerEvents [4, 5, 6] 2 2).flatten
    [([7, 8, 9], 3)] (folderOverallDeltas 2 [([7, 8, 9], 3)]).flatten
    (by decide) (List.Perm.refl _) (List.Perm.refl _)).2.1 2

/-- The `CopyThread.run` loop with an injected I/O exception:
`err = some k` means the I/O call of iteration `k` (counting from the
current one) raises.  Third component: whether an exception escaped the
loop (it is then caught by the `except` clause of `run`, line 99, which
only logs it — the unit of work ends early and is never retried). -/
def copyLoopE (src dst : List Nat) (pos btc bs : Nat) (err : Option Nat) :
    List Nat × List Nat × Bool :=
  if hbtc : btc = 0 then (dst, [], false)
  else if herr : err = some 0 then (dst, [], true)
  else
    let readSize := if bs ≤ btc then bs else btc
    let data := fileRead src pos readSize
    if hd : data.length = 0 then (dst, [], false)
    else
      let out := copyLoopE src (writeAt dst pos data) (pos + data.length)
        (btc - data.length) bs (err.map (fun k => k - 1))
      (out.1, data.length :: out.2.1, out.2.2)
termination_by btc
decreasing_by exact Nat.sub_lt (Nat.pos_of_ne_zero hbtc) (Nat.pos_of_ne_zero hd)

/-- `CopyThread.run` with error injection: the `try/except` catches the
loop's exception and logs it, and `finished_signal.emit(...)` runs
unconditionally after the `try/except` (line 101), so the finished flag
is `true` whether or not an error occurred. -/
def CopyThread.runE (src dst : List Nat) (startPos endPos bs : Nat)
    (err : Option Nat) : List Nat × List Nat × Bool :=
  let out := copyLoopE src dst startPos (endPos - startPos) bs err
  (out.1, out.2.1, true)

/-- The per-file copy of `FolderCopyThread.run` (lines 132-146) with an
injected I/O exception, analogous to `copyLoopE`; the final component
records whether the exception was raised (it is caught by the `except`
on line 145, which logs and lets the worker continue with the next
task). -/
def copyFileLoopE (src dst : List Nat) (copied fileSize bs : Nat)
    (err : Option Nat) : List Nat × List Nat × List Nat × Bool :=
  if hlt : copied < fileSize then
    if herr : err = some 0 then (dst, [], [], true)
    else
      let readSize := if bs ≤ fileSize - copied then bs else fileSize - copied
      let data := fileRead src copied readSize
      if hd : data.length = 0 then (dst, [], [], false)
      else
        let out := copyFileLoopE src (dst ++ data) (copied + data.length)
          fileSize bs (err.map (fun k => k - 1))
        (out.1, (copied + data.length) * 100 / fileSize :: out.2.1,
         data.length :: out.2.2.1, out.2.2.2)
  else (dst, [], [], false)
termination_by fileSize - copied
decreasing_by exact Nat.sub_lt_sub_left hlt (Nat.lt_add_of_pos_right (Nat.pos_of_ne_zero hd))

/-- `FolderCopyThread.run` (lines 121-147) for a worker draining the
rest of the queue alone: `while True` pops the head task when the queue
is nonempty, otherwise breaks; each popped task is copied inside
`try/except`, an exception is logged and the worker continues with the
next pull; `finished_signal` is emitted when the pull finds the queue
empty.  Each task `(contents, recorded size)` is paired with an
optional injected error; the result lists the destination file contents
produced per task (every task is attempted, errored or not) and whether
the finished signal was emitted. -/
def folderRunE (bs : Nat) :
    List ((List Nat × Nat) × Option Nat) → List (List Nat) × Bool
  | [] => ([], true)
  | (t, err) :: rest =>
    let file := copyFileLoopE t.1 [] 0 t.2 bs err
    let out := folderRunE bs rest
    (file.1 :: out.1, out.2)

lemma copyLoopE_events_isPre (src : List Nat) (bs : Nat) :
    ∀ btc (dst : List Nat) (pos k : Nat),
      ∃ rest, (copyLoopE src dst pos btc bs (some k)).2.1 ++ rest
        = (copyLoopE src dst pos btc bs none).2.1 := by
  intro btc
  induction btc using Nat.strong_induction_on with
  | _ btc IH =>
    intro dst pos k
    rcases Nat.eq_zero_or_pos btc with h0 | hpos
    · subst h0
      rw [copyLoopE, copyLoopE]
      exact ⟨[], rfl⟩
    · rcases Nat.eq_zero_or_pos k with hk0 | hkpos
      · subst hk0
        rw [copyLoopE]
        rw [dif_neg (by omega), dif_pos rfl]
        exact ⟨(copyLoopE src dst pos btc bs none).2.1, rfl⟩
      · have hb : ¬ btc = 0 := by omega
        have hne : ¬ (some k = some 0) := by
          simp only [Option.some.injEq]
          omega
        have hnone : ¬ ((none : Option Nat) = some 0) := by simp
        rw [copyLoopE, copyLoopE]
        simp only [dif_neg hb, dif_neg hne, dif_neg hnone]
        by_cases hd : (fileRead src pos (if bs ≤ btc then bs else btc)).length = 0
        · simp only [dif_pos hd]
          exact ⟨[], rfl⟩
        · simp only [dif_neg hd, Option.map_some]
          obtain ⟨rest, hrest⟩ := IH
            (btc - (fileRead src pos (if bs ≤ btc then bs else btc)).length)
            (Nat.sub_lt hpos (Nat.pos_of_ne_zero hd))
            (writeAt dst pos (fileRead src pos (if bs ≤ btc then bs else btc)))
            (pos + (fileRead src pos (if bs ≤ btc then bs else btc)).length)
            (k - 1)
          refine ⟨rest, ?_⟩
          simp only [Option.map_some', Option.map_none', List.cons_append]
          rw [hrest]

lemma folderRunE_all_tasks (bs : Nat) :
    ∀ tasks : List ((List Nat × Nat) × Option Nat),
      (folderRunE bs tasks).2 = true
      ∧ (folderRunE bs tasks).1.length = tasks.length := by
  intro tasks
  induction tasks with
  | nil => exact ⟨rfl, rfl⟩
  | cons t rest IH =>
    obtain ⟨t, err⟩ := t
    simp only [folderRunE, List.length_cons]
    exact ⟨IH.1, by rw [IH.2]⟩

/-- Claim C4: an I/O error inside a worker is caught locally and only
ends the current unit of work early.  File mode: a run with an error
injected at any iteration emits a prefix of the error-free run's
progress events (the range is abandoned, never retried) and still
emits `finished_signal`.  Folder mode: a worker attempts every
remaining task exactly once whatever errors occur, and emits its
finished signal exactly when its pull finds the queue empty; no error
is ever reported to the orchestrator beyond the plain finished
signal (which carries only the thread index). -/
theorem io_error_caught_locally (src dst : List Nat) (s e bs k : Nat)
    (tasks : List ((List Nat × Nat) × Option Nat)) :
    ((CopyThread.runE src dst s e bs (some k)).2.2 = true)
    ∧ (∃ rest, (CopyThread.runE src dst s e bs (some k)).2.1 ++ rest
        = (CopyThread.runE src dst s e bs none).2.1)
    ∧ ((folderRunE bs tasks).2 = true)
    ∧ ((folderRunE bs tasks).1.length = tasks.length) := by
  refine ⟨rfl, ?_, (folderRunE_all_tasks bs tasks).1,
    (folderRunE_all_tasks bs tasks).2⟩
  exact copyLoopE_events_isPre src bs (e - s) dst s k

/-- One file found by the `os.walk` scan of `start_copy`
(src/pycopy.py lines 324-334): the file's path relative to the source
root as components (the last component is the file name), and its size
(`os.path.getsize`, 0 if it raised). -/
structure ScanEntry where
  rel : List String
  size : Nat
deriving DecidableEq

/-- Outcome of the folder branch of `start_copy`. -/
inductive FolderStart where
  | abortEmpty
  | started (queue : List ScanEntry) (workers : Nat)
deriving DecidableEq

/-- `start_copy`, folder branch (lines 317-368): after the scan,
`if total_size == 0` shows the empty-source warning and returns before
any progress bar, task queue, lock or worker object is constructed;
otherwise the scan list becomes the shared queue and `thread_count`
workers are built and started. -/
def startCopyFolder (entries : List ScanEntry) (threadCount : Nat) : FolderStart :=
  if (entries.map ScanEntry.size).sum = 0 then FolderStart.abortEmpty
  else FolderStart.started entries threadCount

/-- Number of workers started by the folder branch. -/
def workersStarted : FolderStart → Nat
  | FolderStart.abortEmpty => 0
  | FolderStart.started _ w => w

/-- Directories created by a worker processing one task (lines
128-131): `dst_dir = os.path.dirname(dst_file)` followed by
`os.makedirs(dst_dir, exist_ok=True)` creates every missing ancestor
of the file's directory.  Paths are component lists relative to the
user-chosen destination directory (which already exists), and
`dst_file = folderName :: rel` with `folderName` the source folder's
base name (lines 319-320 and 328). -/
def dirsCreatedFor (folderName : String) (rel : List String) :
    List (List String) :=
  ((folderName :: rel).dropLast.inits).filter (fun p => p ≠ [])

/-- All directories created during a folder-mode run: the union over
the tasks, whichever worker claims each. -/
def allDirsCreated (folderName : String) (entries : List ScanEntry) :
    List (List String) :=
  (entries.map (fun t => dirsCreatedFor folderName t.rel)).flatten

/-- Destination files created during a folder-mode run (line 133 opens
`dst_file` with mode `wb`). -/
def allFilesCreated (folderName : String) (entries : List ScanEntry) :
    List (List String) :=
  entries.map (fun t => folderName :: t.rel)

/-- Directories the whole folder-mode operation creates: nothing when
the start aborts. -/
def folderModeDirsCreated (folderName : String) (entries : List ScanEntry)
    (threadCount : Nat) : List (List String) :=
  match startCopyFolder entries threadCount with
  | FolderStart.abortEmpty => []
  | FolderStart.started q _ => allDirsCreated folderName q

/-- Files the whole folder-mode operation creates: nothing when the
start aborts. -/
def folderModeFilesCreated (folderName : String) (entries : List ScanEntry)
    (threadCount : Nat) : List (List String) :=
  match startCopyFolder entries threadCount with
  | FolderStart.abortEmpty => []
  | FolderStart.started q _ => allFilesCreated folderName q

/-- Claim C5: a folder-mode request whose scan totals 0 bytes (empty
tree or only zero-byte files) aborts with the empty-source warning —
and only then — before any worker is constructed, and the operation
creates no destination directories or files. -/
theorem empty_source_rejected (fn : String) (entries : List ScanEntry)
    (tc : Nat) :
    ((entries.map ScanEntry.size).sum = 0 ↔
      startCopyFolder entries tc = FolderStart.abortEmpty)
    ∧ ((entries.map ScanEntry.size).sum = 0 →
        workersStarted (startCopyFolder entries tc) = 0
        ∧ folderModeDirsCreated fn entries tc = []
        ∧ folderModeFilesCreated fn entries tc = []) := by
  constructor
  · constructor
    · intro h
      simp [startCopyFolder, h]
    · intro h
      by_cases hs : (entries.map ScanEntry.size).sum = 0
      · exact hs
      · rw [startCopyFolder, if_neg hs] at h
        exact absurd h (by simp)
  · intro h
    refine ⟨?_, ?_, ?_⟩ <;>
      simp [startCopyFolder, folderModeDirsCreated, folderModeFilesCreated,
        workersStarted, h]

/-- Witness for C5: one zero-byte file; the operation aborts and
creates nothing. -/
theorem empty_source_rejected_witness :
    folderModeDirsCreated "d" [⟨["sub", "f.txt"], 0⟩] 4 = [] :=
  ((empty_source_rejected "d" [⟨["sub", "f.txt"], 0⟩] 4).2 (by decide)).2.1

/-- Claim C9 (implicit): folder mode does not mirror empty
subdirectories.  Every directory created under the destination root is
an ancestor of some copied file's directory, and a source subdirectory
`d` under which the scan found no file — directly or transitively — is
never created in the destination. -/
theorem empty_subdirs_not_created (fn : String) (entries : List ScanEntry)
    (d : List String) (hd0 : d ≠ [])
    (hnofiles : ∀ t ∈ entries, ¬ (d <+: t.rel.dropLast)) :
    ((fn :: d) ∉ allDirsCreated fn entries)
    ∧ (∀ p ∈ allDirsCreated fn entries,
        ∃ t ∈ entries, p <+: (fn :: t.rel).dropLast) := by
  constructor
  · intro hmem
    rw [allDirsCreated, List.mem_flatten] at hmem
    obtain ⟨l, hl, hmem⟩ := hmem
    rw [List.mem_map] at hl
    obtain ⟨t, ht, rfl⟩ := hl
    rw [dirsCreatedFor, List.mem_filter] at hmem
    obtain ⟨hmem, -⟩ := hmem
    rw [List.mem_inits] at hmem
    rcases ht' : t.rel with _ | ⟨c, cs⟩
    · rw [ht'] at hmem
      simp only [List.dropLast_single] at hmem
      rcases hmem with ⟨s, hs⟩
      simp at hs
    · rw [ht'] at hmem
      have hcons : (fn :: c :: cs).dropLast = fn :: (c :: cs).dropLast := rfl
      rw [hcons, List.cons_prefix_cons] at hmem
      obtain ⟨-, hmem⟩ := hmem
      have := hnofiles t ht
      rw [ht'] at this
      exact this hmem
  · intro p hp
    rw [allDirsCreated, List.mem_flatten] at hp
    obtain ⟨l, hl, hp⟩ := hp
    rw [List.mem_map] at hl
    obtain ⟨t, ht, rfl⟩ := hl
    rw [dirsCreatedFor, List.mem_filter] at hp
    obtain ⟨hp, -⟩ := hp
    rw [List.mem_inits] at hp
    exact ⟨t, ht, hp⟩

/-- Witness for C9: one file `a/f.txt`; the empty source subdirectory
`b` is not created under the destination root. -/
theorem empty_subdirs_not_created_witness :
    ["root", "b"] ∉ allDirsCreated "root" [⟨["a", "f.txt"], 5⟩] :=
  (empty_subdirs_not_created "root" [⟨["a", "f.txt"], 5⟩] ["b"]
    (by decide) (by decide)).1

/-- A trace event of the folder-mode queue protocol
(src/pycopy.py lines 122-126): holding the lock, a worker either pops
the head task (a claim) or finds the queue empty and breaks out of its
loop. -/
inductive QEvent (τ : Type) (W : Nat) where
  | claim (w : Fin W) (t : τ)
  | exited (w : Fin W)
deriving DecidableEq

/-- The task claimed by an event, if it is a claim. -/
def QEvent.claimTask {τ : Type} {W : Nat} : QEvent τ W → Option τ
  | QEvent.claim _ t => some t
  | QEvent.exited _ => none

/-- One folder-mode run over the shared queue: `sched` lists which
worker acquires `self.lock` at each step (any interleaving).  The body
of `with self.lock:` — the emptiness check and `pop(0)` — is atomic
with respect to the other workers.  A worker that found the queue
empty has broken out of its loop and is skipped if scheduled again.
Returns the event trace and the remaining queue. -/
def execSched {τ : Type} {W : Nat} (q : List τ) (done : Fin W → Bool) :
    List (Fin W) → List (QEvent τ W) × List τ
  | [] => (([] : List (QEvent τ W)), q)
  | w :: ws =>
    if done w then execSched q done ws
    else
      match q with
      | [] =>
        let out := execSched ([] : List τ) (fun x => if x = w then true else done x) ws
        (QEvent.exited w :: out.1, out.2)
      | t :: rest =>
        let out := execSched rest done ws
        (QEvent.claim w t :: out.1, out.2)

/-- A run started with all workers active. -/
def execRun {τ : Type} {W : Nat} (q : List τ) (sched : List (Fin W)) :
    List (QEvent τ W) × List τ :=
  execSched q (fun _ => false) sched

/-- The tasks claimed in a trace, in claim order. -/
def claimedTasks {τ : Type} {W : Nat} (tr : List (QEvent τ W)) : List τ :=
  tr.filterMap QEvent.claimTask

lemma execSched_claims_partition {τ : Type} {W : Nat} :
    ∀ (sched : List (Fin W)) (q : List τ) (done : Fin W → Bool),
      claimedTasks (execSched q done sched).1 ++ (execSched q done sched).2 = q := by
  intro sched
  induction sched with
  | nil =>
    intro q done
    simp [execSched, claimedTasks]
  | cons w ws IH =>
    intro q done
    simp only [execSched]
    by_cases hw : done w
    · rw [if_pos hw]
      exact IH q done
    · rw [if_neg hw]
      match q with
      | [] =>
        simp only [claimedTasks, List.filterMap_cons]
        have h := IH ([] : List τ) (fun x => if x = w then true else done x)
        simpa [claimedTasks, QEvent.claimTask] using h
      | t :: rest =>
        simp only [claimedTasks, List.filterMap_cons, QEvent.claimTask]
        have h := IH rest done
        simp only [claimedTasks] at h
        simp [h]

lemma execSched_exit_after_drain {τ : Type} {W : Nat} :
    ∀ (sched : List (Fin W)) (q : List τ) (done : Fin W → Bool)
      (tr1 tr2 : List (QEvent τ W)) (w : Fin W),
      (execSched q done sched).1 = tr1 ++ QEvent.exited w :: tr2 →
      q.length ≤ (claimedTasks tr1).length := by
  intro sched
  induction sched with
  | nil =>
    intro q done tr1 tr2 w h
    simp only [execSched] at h
    exact absurd h (by simp)
  | cons v ws IH =>
    intro q done tr1 tr2 w h
    simp only [execSched] at h
    by_cases hv : done v
    · rw [if_pos hv] at h
      exact IH q done tr1 tr2 w h
    · rw [if_neg hv] at h
      match q, h with
      | [], h =>
        simp
      | t :: rest, h =>
        simp only at h
        match tr1, h with
        | [], h =>
          simp only [List.nil_append] at h
          exact absurd (List.head_eq_of_cons_eq h) (by simp)
        | e :: tr1', h =>
          have htail : (execSched rest done ws).1 = tr1' ++ QEvent.exited w :: tr2 :=
            List.tail_eq_of_cons_eq h
          have hhead : QEvent.claim v t = e := List.head_eq_of_cons_eq h
          have hrec := IH rest done tr1' tr2 w htail
          rw [← hhead]
          simp only [claimedTasks, List.filterMap_cons, QEvent.claimTask,
            List.length_cons]
          simp only [claimedTasks] at hrec
          omega

/-- Claim C6: the emptiness check and the pop of the head happen under
one lock, so in every folder-mode run — whatever the interleaving
`sched` — the claimed tasks are exactly a prefix of the scan-ordered
queue, each task going to exactly one worker (at-most-once FIFO
delivery, the remainder staying in the queue), and a worker exits —
which is when it emits its finished signal — only on a pull that found
the queue empty, i.e. only after all `q.length` tasks were already
claimed. -/
theorem taskQueue_fifo_at_most_once {τ : Type} (W : Nat) (q : List τ)
    (sched : List (Fin W)) (tr1 tr2 : List (QEvent τ W)) (w : Fin W) :
    (claimedTasks (execRun q sched).1 ++ (execRun q sched).2 = q)
    ∧ ((execRun q sched).1 = tr1 ++ QEvent.exited w :: tr2 →
        q.length ≤ (claimedTasks tr1).length) := by
  constructor
  · exact execSched_claims_partition sched q (fun _ => false)
  · intro h
    exact execSched_exit_after_drain sched q (fun _ => false) tr1 tr2 w h

/-- Witness for C6: queue `[10, 20]`, two workers, schedule
`0, 1, 0, 1`: worker 0 claims 10, worker 1 claims 20, then each exits
on an empty pull; the exit of worker 0 happens after both tasks were
claimed. -/
theorem taskQueue_fifo_at_most_once_witness :
    (2 : Nat) ≤ (claimedTasks [QEvent.claim (0 : Fin 2) (10 : Nat),
      QEvent.claim (1 : Fin 2) 20]).length :=
  (taskQueue_fifo_at_most_once 2 [10, 20]
    [(0 : Fin 2), 1, 0, 1]
    [QEvent.claim (0 : Fin 2) (10 : Nat), QEvent.claim (1 : Fin 2) 20]
    [QEvent.exited (1 : Fin 2)] (0 : Fin 2)).2 (by decide)

end Pycopy
